import Mathlib

/-!
# Verification of the hubspot-cleaner webhook service

Shallow embedding of `src/app.py`: the pure normalization helpers
(`normalize_phone`, `normalize_name`, `split_name`) and the request
handler `hubspot_cleaner`, together with proofs of the specified
properties.

Strings are modelled over their underlying character lists.  Python's
Unicode-aware character classes (`\s`, `\d`, `str.isalpha`,
`str.capitalize`, `str.strip`) are modelled on their ASCII behaviour,
which is what every specified input exercises.
-/

/-! ## Character-level helpers (ASCII models of Python character classes) -/

/-- ASCII model of Python's `\s` / `str.strip` whitespace class:
space, tab, newline, carriage return, vertical tab, form feed. -/
def pyIsSpace (c : Char) : Bool :=
  c = ' ' || c = '\t' || c = '\n' || c = '\r' || c = '\x0b' || c = '\x0c'

/-- The apostrophe character (codepoint 39). -/
def apos : Char := Char.ofNat 39

/-- The delimiters of `re.split(r"([-apos])", word)` in `normalize_name`:
hyphen and apostrophe. -/
def isDelim (c : Char) : Bool := c = '-' || c = apos

/-- ASCII model of Python's `str.isalpha` on a single character. -/
def isAlphaPy (c : Char) : Bool :=
  (65 ≤ c.toNat && c.toNat ≤ 90) || (97 ≤ c.toNat && c.toNat ≤ 122)

/-- ASCII model of upper-casing one character (as `str.capitalize` does
to the first character). -/
def toUpperPy (c : Char) : Char :=
  if 97 ≤ c.toNat ∧ c.toNat ≤ 122 then Char.ofNat (c.toNat - 32) else c

/-- ASCII model of lower-casing one character (as `str.capitalize` does
to the remaining characters). -/
def toLowerPy (c : Char) : Char :=
  if 65 ≤ c.toNat ∧ c.toNat ≤ 90 then Char.ofNat (c.toNat + 32) else c

/-! ## `normalize_phone`

Embedding of

```python
def normalize_phone(phone):
    if not phone:
        return ""
    phone = re.sub(r"(ext\.?|x|extension)\s*\d*", "", phone, flags=re.IGNORECASE)
    digits = re.sub(r"\D", "", phone)
    if not digits:
        return ""
    if len(digits) == 10:
        digits = "1" + digits
    elif len(digits) > 11 and digits.startswith("00"):
        digits = digits[2:]
    return f"+{digits}"
```

The first `re.sub` is embedded as a left-to-right scan.  At each
position the alternatives of the group are tried in the pattern's
order (`ext\.?`, then `x`, then `extension`), each case-insensitively;
on a match the greedy `\s*\d*` tail is consumed and the scan resumes
after the match, exactly as Python's `re.sub` does (no alternative can
match the empty string, and nothing after `\s*\d*` can force
backtracking, so leftmost-first matching is a plain scan). -/

/-- Case-insensitive match of one subject character `c` against one
lower-case pattern letter `d` (model of `re.IGNORECASE` on ASCII). -/
def ciChar (c d : Char) : Bool := c = d || c = toUpperPy d

/-- Case-insensitive prefix test of a lower-case pattern against the input. -/
def ciPre : List Char → List Char → Bool
  | [], _ => true
  | _ :: _, [] => false
  | d :: ds, c :: cs => ciChar c d && ciPre ds cs

/-- Length of the longest prefix satisfying `p` (regex `p*`, greedy). -/
def countWhile (p : Char → Bool) (l : List Char) : Nat := (l.takeWhile p).length

/-- Number of characters consumed by the greedy suffix `\s*\d*`. -/
def wsDigits (l : List Char) : Nat :=
  let k := countWhile pyIsSpace l
  k + countWhile Char.isDigit (l.drop k)

/-- Alternative 1, `ext\.?\s*\d*`: length of the match at the head of `l`,
or `none` if it does not match there. -/
def tryExt (l : List Char) : Option Nat :=
  match l with
  | a :: b :: c :: rest =>
    if ciChar a 'e' && ciChar b 'x' && ciChar c 't' then
      match rest with
      | d :: rest2 => if d = '.' then some (4 + wsDigits rest2) else some (3 + wsDigits rest)
      | [] => some 3
    else none
  | _ => none

/-- Alternative 2, `x\s*\d*`. -/
def tryX (l : List Char) : Option Nat :=
  match l with
  | a :: rest => if ciChar a 'x' then some (1 + wsDigits rest) else none
  | [] => none

/-- Alternative 3, `extension\s*\d*` (unreachable in Python because the
first alternative already matches every occurrence of `ext`, but kept
in the model for faithfulness). -/
def tryExtension (l : List Char) : Option Nat :=
  if ciPre ['e', 'x', 't', 'e', 'n', 's', 'i', 'o', 'n'] l then
    some (9 + wsDigits (l.drop 9))
  else none

/-- Length of the regex match starting exactly at the head of `l`
(`0` if no alternative matches there). -/
def extMatchLen (l : List Char) : Nat :=
  match tryExt l with
  | some n => n
  | none =>
    match tryX l with
    | some n => n
    | none =>
      match tryExtension l with
      | some n => n
      | none => 0

/-- The `re.sub` scan, with explicit fuel (one unit per consumed
character suffices, since every match is non-empty). -/
def stripExtFuel : Nat → List Char → List Char
  | _, [] => []
  | 0, l => l
  | fuel + 1, c :: rest =>
    let n := extMatchLen (c :: rest)
    if n = 0 then c :: stripExtFuel fuel rest
    else stripExtFuel fuel (List.drop n (c :: rest))

/-- `re.sub(r"(ext\.?|x|extension)\s*\d*", "", phone, flags=re.IGNORECASE)`. -/
def stripExt (l : List Char) : List Char := stripExtFuel l.length l

/-- `normalize_phone` from `src/app.py` (argument `none` models Python `None`). -/
def normalize_phone : Option String → String
  | none => ""
  | some phone =>
    if phone = "" then ""
    else
      let cleaned := stripExt phone.toList
      let digits := cleaned.filter Char.isDigit
      if digits = [] then ""
      else if digits.length = 10 then String.mk ('+' :: '1' :: digits)
      else if 11 < digits.length ∧ digits.take 2 = ['0', '0'] then
        String.mk ('+' :: digits.drop 2)
      else String.mk ('+' :: digits)

/-! ## `normalize_name`

Embedding of

```python
def normalize_name(name):
    if not name:
        return ""
    name = re.sub(r"\s+", " ", name.strip())
    parts = []
    for word in name.split(" "):
        sub = re.split(r"([-apostrophe])", word)
        parts.append("".join(s.capitalize() if s.isalpha() else s for s in sub))
    return " ".join(parts)
```
-/

/-- `str.strip` from the left: drop leading whitespace. -/
def lstripL (l : List Char) : List Char := l.dropWhile pyIsSpace

/-- `str.strip`: drop leading and trailing whitespace. -/
def stripL (l : List Char) : List Char := ((lstripL l).reverse.dropWhile pyIsSpace).reverse

/-- `re.sub(r"\s+", " ", ...)`: each maximal whitespace run becomes one
space.  The flag records whether the previous character was whitespace
(i.e. whether we are inside a run whose space was already emitted). -/
def collapseAux : List Char → Bool → List Char
  | [], _ => []
  | c :: rest, prevWs =>
    if pyIsSpace c then
      (if prevWs then [] else [' ']) ++ collapseAux rest true
    else c :: collapseAux rest false

/-- `str.split(" ")`: split on single spaces, keeping empty pieces. -/
def wordsAux : List Char → List Char → List (List Char)
  | [], acc => [acc.reverse]
  | c :: rest, acc =>
    if c = ' ' then acc.reverse :: wordsAux rest []
    else wordsAux rest (c :: acc)

def splitSp (l : List Char) : List (List Char) := wordsAux l []

/-- `re.split(r"([-apostrophe])", word)`: split at hyphen/apostrophe,
keeping each delimiter as its own singleton piece. -/
def subSplitAux : List Char → List Char → List (List Char)
  | [], acc => [acc.reverse]
  | c :: rest, acc =>
    if isDelim c then acc.reverse :: [c] :: subSplitAux rest []
    else subSplitAux rest (c :: acc)

def subSplit (l : List Char) : List (List Char) := subSplitAux l []

/-- `str.isalpha`: non-empty and all characters alphabetic. -/
def isalphaL (p : List Char) : Bool := !p.isEmpty && p.all isAlphaPy

/-- `str.capitalize`: first character upper-cased, the rest lower-cased. -/
def capitalizeL : List Char → List Char
  | [] => []
  | c :: rest => toUpperPy c :: rest.map toLowerPy

/-- `s.capitalize() if s.isalpha() else s`. -/
def capPiece (p : List Char) : List Char := if isalphaL p then capitalizeL p else p

/-- One word of the loop body: sub-split, capitalize alphabetic pieces,
rejoin with `"".join`. -/
def processWord (w : List Char) : List Char := ((subSplit w).map capPiece).flatten

/-- `" ".join`. -/
def joinSp : List (List Char) → List Char
  | [] => []
  | [w] => w
  | w :: ws => w ++ ' ' :: joinSp ws

/-- The whole pipeline of `normalize_name` on a character list. -/
def normalize_nameL (l : List Char) : List Char :=
  joinSp ((splitSp (collapseAux (stripL l) false)).map processWord)

/-- `normalize_name` from `src/app.py` (argument `none` models Python `None`). -/
def normalize_name : Option String → String
  | none => ""
  | some s => if s = "" then "" else String.mk (normalize_nameL s.toList)

/-! ## `split_name`

Embedding of

```python
def split_name(full_name):
    if not full_name or not full_name.strip():
        return "", ""
    full_name = full_name.strip()
    first_space = full_name.find(" ")
    if first_space == -1:
        return full_name, ""
    first = full_name[:first_space]
    last = full_name[first_space + 1:].strip()
    return first, last
```
-/

/-- `str.find(" ")`: index of the first space, `none` for Python's `-1`. -/
def firstSpace : List Char → Option Nat
  | [] => none
  | c :: rest => if c = ' ' then some 0 else (firstSpace rest).map (· + 1)

/-- `split_name` from `src/app.py` (argument `none` models Python `None`). -/
def split_name : Option String → String × String
  | none => ("", "")
  | some s =>
    if s = "" then ("", "")
    else if stripL s.toList = [] then ("", "")
    else
      match firstSpace (stripL s.toList) with
      | none => (String.mk (stripL s.toList), "")
      | some i =>
        (String.mk ((stripL s.toList).take i),
         String.mk (stripL ((stripL s.toList).drop (i + 1))))

/-! ## The webhook handler `hubspot_cleaner`

The JSON body is modelled by its relevant fields (`data.get(k)` giving
`none` for an absent key), the upstream CRM call by an oracle function
from the posted payload to the upstream status code and response text,
and the handler's HTTP response by a status code paired with a
structured JSON body. -/

/-- The relevant fields of the inbound JSON body of the handler in
`src/app.py` (`data.get("name"/"email"/"phone")`). -/
structure Inbound where
  name : Option String
  email : Option String
  phone : Option String

/-- The `properties` object of the payload posted to the upstream CRM. -/
structure ContactProps where
  firstname : String
  lastname : String
  email : String
  phone : String
deriving DecidableEq

/-- The JSON bodies the handler can respond with. -/
inductive RespBody where
  /-- `{"message": s}` -/
  | message : String → RespBody
  /-- `{"error": e}` -/
  | err : String → RespBody
  /-- `{"error": e, "details": d}` -/
  | errDetails : String → String → RespBody
deriving DecidableEq

/-- What the handler decides before any network traffic: either an
early response (no upstream call is made), or the payload it posts. -/
inductive PreResult where
  | respond : Nat → RespBody → PreResult
  | callUpstream : ContactProps → PreResult
deriving DecidableEq

/-- Python truthiness test `not email` for an optional string. -/
def emailMissing : Option String → Bool
  | none => true
  | some e => e = ""

/-- The validation/normalization/payload phase of `hubspot_cleaner`
(`src/app.py` lines 76-102): extract `name`/`email`/`phone`, split and
normalize, reject on missing email, otherwise build the payload.
The payload's `x or ""` guards are identities on strings and on the
already-validated email. -/
def hubspot_cleaner_pre (data : Inbound) : PreResult :=
  let fl := split_name data.name
  let firstname := normalize_name (some fl.1)
  let lastname := normalize_name (some fl.2)
  let phone := normalize_phone data.phone
  if emailMissing data.email then
    .respond 400 (.err "Missing email")
  else
    .callUpstream ⟨firstname, lastname, data.email.getD "", phone⟩

/-- The response phase of `hubspot_cleaner` (`src/app.py` lines
114-119), mapping the upstream status and response text. -/
def hubspot_cleaner_post (status : Nat) (body : String) : Nat × RespBody :=
  if status = 200 ∨ status = 201 then (200, .message "OK")
  else (500, .errDetails "HubSpot error" body)

/-- The whole request path of `hubspot_cleaner`, given an upstream
oracle.  An early `PreResult.respond` returns without invoking the
oracle. -/
def hubspot_cleaner (data : Inbound) (upstream : ContactProps → Nat × String) :
    Nat × RespBody :=
  match hubspot_cleaner_pre data with
  | .respond st b => (st, b)
  | .callUpstream payload =>
    let r := upstream payload
    hubspot_cleaner_post r.1 r.2

/-- The relevant fields of the Variant A inbound body
(`{firstname, lastname, email, phone}`). -/
structure InboundA where
  firstname : Option String
  lastname : Option String
  email : Option String
  phone : Option String

/-- Modelled from the spec: the Variant A handler (the repository's
second, near-duplicate handler variant is not under `src/`; only the
Variant B handler of `src/app.py` is).  Per the spec it reads separate
`firstname`/`lastname` fields instead of splitting a combined `name`,
normalizes them and the phone with the same helpers, requires a
non-empty email, and posts the same payload shape. -/
def hubspot_cleaner_A_pre (data : InboundA) : PreResult :=
  let firstname := normalize_name data.firstname
  let lastname := normalize_name data.lastname
  let phone := normalize_phone data.phone
  if emailMissing data.email then
    .respond 400 (.err "Missing email")
  else
    .callUpstream ⟨firstname, lastname, data.email.getD "", phone⟩

/-- Modelled from the spec: the Variant A request path (same response
mapping as the Variant B handler). -/
def hubspot_cleaner_A (data : InboundA) (upstream : ContactProps → Nat × String) :
    Nat × RespBody :=
  match hubspot_cleaner_A_pre data with
  | .respond st b => (st, b)
  | .callUpstream payload =>
    let r := upstream payload
    hubspot_cleaner_post r.1 r.2

/-- Decidable substring test (used to state that a response body does
not mention the upstream status code anywhere). -/
def containsSub : List Char → List Char → Bool
  | [], pat => pat.isEmpty
  | c :: rest, pat => pat.isPrefixOf (c :: rest) || containsSub rest pat


/-! ## Auxiliary predicates used by the proofs -/

/-- No character of `l` is whitespace. -/
def wsFree (l : List Char) : Prop := ∀ c ∈ l, pyIsSpace c = false

/-- No character of `l` is a hyphen/apostrophe delimiter. -/
def delimFree (l : List Char) : Prop := ∀ c ∈ l, isDelim c = false

/-- `l` has no two adjacent space characters. -/
def noDouble : List Char → Bool
  | [] => true
  | [_] => true
  | a :: b :: t => !(a = ' ' && b = ' ') && noDouble (b :: t)

/-- The shape of the list produced by `subSplit`: delimiter-free pieces
alternating with singleton delimiters, beginning and ending with a
piece. -/
inductive AltPieces : List (List Char) → Prop
  | last (p : List Char) (hp : delimFree p) : AltPieces [p]
  | cons (p : List Char) (d : Char) (rest : List (List Char))
      (hp : delimFree p) (hd : isDelim d = true) (h : AltPieces rest) :
      AltPieces (p :: [d] :: rest)

/-! ## Character-level lemmas -/

theorem toNat_ofNat_of_lt {m : Nat} (h : m < 55296) : (Char.ofNat m).toNat = m := by
  have hv : m.isValidChar := Or.inl h
  simp [Char.ofNat, dif_pos hv, Char.ofNatAux, Char.toNat, UInt32.toNat]

theorem toNat_toUpperPy (c : Char) :
    (toUpperPy c).toNat = if 97 ≤ c.toNat ∧ c.toNat ≤ 122 then c.toNat - 32 else c.toNat := by
  unfold toUpperPy
  split
  · next h => exact toNat_ofNat_of_lt (by omega)
  · rfl

theorem toNat_toLowerPy (c : Char) :
    (toLowerPy c).toNat = if 65 ≤ c.toNat ∧ c.toNat ≤ 90 then c.toNat + 32 else c.toNat := by
  unfold toLowerPy
  split
  · next h => exact toNat_ofNat_of_lt (by omega)
  · rfl

theorem toUpperPy_toUpperPy (c : Char) : toUpperPy (toUpperPy c) = toUpperPy c := by
  unfold toUpperPy
  split
  · next h =>
    rw [if_neg]
    rw [toNat_ofNat_of_lt (by omega)]
    omega
  · rfl

theorem toLowerPy_toLowerPy (c : Char) : toLowerPy (toLowerPy c) = toLowerPy c := by
  unfold toLowerPy
  split
  · next h =>
    rw [if_neg]
    rw [toNat_ofNat_of_lt (by omega)]
    omega
  · rfl

theorem isAlphaPy_toUpperPy (c : Char) : isAlphaPy (toUpperPy c) = isAlphaPy c := by
  have h := toNat_toUpperPy c
  rw [Bool.eq_iff_iff]
  unfold isAlphaPy
  rw [h]
  by_cases hc : 97 ≤ c.toNat ∧ c.toNat ≤ 122
  · rw [if_pos hc]
    simp only [Bool.or_eq_true, Bool.and_eq_true, decide_eq_true_eq]
    omega
  · rw [if_neg hc]

theorem isAlphaPy_toLowerPy (c : Char) : isAlphaPy (toLowerPy c) = isAlphaPy c := by
  have h := toNat_toLowerPy c
  rw [Bool.eq_iff_iff]
  unfold isAlphaPy
  rw [h]
  by_cases hc : 65 ≤ c.toNat ∧ c.toNat ≤ 90
  · rw [if_pos hc]
    simp only [Bool.or_eq_true, Bool.and_eq_true, decide_eq_true_eq]
    omega
  · rw [if_neg hc]

theorem toNat_bounds_of_isAlphaPy {c : Char} (h : isAlphaPy c = true) :
    (65 ≤ c.toNat ∧ c.toNat ≤ 90) ∨ (97 ≤ c.toNat ∧ c.toNat ≤ 122) := by
  unfold isAlphaPy at h
  simp only [Bool.or_eq_true, Bool.and_eq_true, decide_eq_true_eq] at h
  omega

theorem not_space_of_isAlphaPy {c : Char} (h : isAlphaPy c = true) : pyIsSpace c = false := by
  have hb := toNat_bounds_of_isAlphaPy h
  unfold pyIsSpace
  simp only [Bool.or_eq_false_iff, decide_eq_false_iff_not]
  refine ⟨⟨⟨⟨⟨?_, ?_⟩, ?_⟩, ?_⟩, ?_⟩, ?_⟩ <;>
    (intro he; subst he; revert hb; decide)

theorem not_delim_of_isAlphaPy {c : Char} (h : isAlphaPy c = true) : isDelim c = false := by
  have hb := toNat_bounds_of_isAlphaPy h
  unfold isDelim
  simp only [Bool.or_eq_false_iff, decide_eq_false_iff_not]
  constructor <;> (intro he; subst he; revert hb; decide)

theorem toNat_bounds_of_isDigit {c : Char} (h : c.isDigit = true) :
    48 ≤ c.toNat ∧ c.toNat ≤ 57 := by
  unfold Char.isDigit at h
  simp only [Bool.and_eq_true, decide_eq_true_eq, ge_iff_le, UInt32.le_def] at h
  exact h

/-! ## Lemmas about `normalize_phone` -/

theorem ciChar_e_eq_false_of_isDigit {c : Char} (h : c.isDigit = true) :
    ciChar c 'e' = false := by
  unfold ciChar
  simp only [Bool.or_eq_false_iff, decide_eq_false_iff_not]
  constructor <;> (intro hc; subst hc; exact absurd h (by decide))

theorem ciChar_x_eq_false_of_isDigit {c : Char} (h : c.isDigit = true) :
    ciChar c 'x' = false := by
  unfold ciChar
  simp only [Bool.or_eq_false_iff, decide_eq_false_iff_not]
  constructor <;> (intro hc; subst hc; exact absurd h (by decide))

theorem tryExt_eq_none {a : Char} {l : List Char} (h : ciChar a 'e' = false) :
    tryExt (a :: l) = none := by
  unfold tryExt
  cases l with
  | nil => rfl
  | cons b l2 =>
    cases l2 with
    | nil => rfl
    | cons c rest => simp [h]

theorem tryX_eq_none {a : Char} {l : List Char} (h : ciChar a 'x' = false) :
    tryX (a :: l) = none := by
  unfold tryX
  simp [h]

theorem tryExtension_eq_none {a : Char} {l : List Char} (h : ciChar a 'e' = false) :
    tryExtension (a :: l) = none := by
  unfold tryExtension ciPre
  simp [h]

theorem extMatchLen_digit_head {c : Char} {rest : List Char} (h : c.isDigit = true) :
    extMatchLen (c :: rest) = 0 := by
  have he := ciChar_e_eq_false_of_isDigit h
  have hx := ciChar_x_eq_false_of_isDigit h
  unfold extMatchLen
  rw [tryExt_eq_none he, tryX_eq_none hx, tryExtension_eq_none he]

theorem stripExtFuel_digits :
    ∀ l : List Char, (∀ c ∈ l, c.isDigit = true) → ∀ fuel, stripExtFuel fuel l = l := by
  intro l
  induction l with
  | nil => intro _ fuel; cases fuel <;> rfl
  | cons c rest ih =>
    intro h fuel
    cases fuel with
    | zero => rfl
    | succ n =>
      have hz : extMatchLen (c :: rest) = 0 :=
        extMatchLen_digit_head (h c (List.mem_cons_self c rest))
      simp only [stripExtFuel, hz, if_pos]
      rw [ih (fun x hx => h x (List.mem_cons_of_mem c hx)) n]

/-- A pure digit string is untouched by the extension-marker `re.sub`. -/
theorem stripExt_digits {l : List Char} (h : ∀ c ∈ l, c.isDigit = true) :
    stripExt l = l :=
  stripExtFuel_digits l h l.length

/-- `normalize_phone` on a pure digit string: the case analysis of the
code, with no stripping left to do. -/
theorem normalize_phone_all_digits {l : List Char} (h : ∀ c ∈ l, c.isDigit = true) :
    normalize_phone (some (String.mk l)) =
      if l = [] then ""
      else if l.length = 10 then String.mk ('+' :: '1' :: l)
      else if 11 < l.length ∧ l.take 2 = ['0', '0'] then String.mk ('+' :: l.drop 2)
      else String.mk ('+' :: l) := by
  by_cases hl : l = []
  · subst hl; decide
  · have hne : String.mk l ≠ "" := fun he => hl (congrArg String.data he)
    simp only [normalize_phone, String.toList]
    rw [if_neg hne]
    have h1 : stripExt l = l := stripExt_digits h
    simp only [h1, List.filter_eq_self.mpr h, if_neg hl]

/-! ## Lemmas about `split_name` -/

theorem firstSpace_eq_none {l : List Char} (h : ' ' ∉ l) : firstSpace l = none := by
  induction l with
  | nil => rfl
  | cons c rest ih =>
    simp only [List.mem_cons, not_or] at h
    unfold firstSpace
    rw [if_neg (fun hc => h.1 hc.symm), ih h.2]
    rfl

theorem firstSpace_append {pre post : List Char} (h : ' ' ∉ pre) :
    firstSpace (pre ++ ' ' :: post) = some pre.length := by
  induction pre with
  | nil => simp [firstSpace]
  | cons c rest ih =>
    simp only [List.mem_cons, not_or] at h
    simp only [List.cons_append, firstSpace]
    rw [if_neg (fun hc => h.1 hc.symm)]
    show Option.map (· + 1) (firstSpace (rest ++ ' ' :: post)) = some (c :: rest).length
    rw [ih h.2]
    rfl

/-! ## Lemmas about `normalize_name`: splitting and joining -/

theorem subSplitAux_flatten : ∀ l acc : List Char,
    (subSplitAux l acc).flatten = acc.reverse ++ l := by
  intro l
  induction l with
  | nil => intro acc; simp [subSplitAux]
  | cons c rest ih =>
    intro acc
    unfold subSplitAux
    cases hB : isDelim c with
    | true => simp [hB, ih]
    | false => simp [hB, ih (c :: acc)]

/-- `"".join(re.split(r"([-apos])", w)) == w`. -/
theorem subSplit_flatten (w : List Char) : (subSplit w).flatten = w := by
  simpa using subSplitAux_flatten w []

theorem joinSp_cons_of_ne_nil {w : List Char} {ws : List (List Char)} (h : ws ≠ []) :
    joinSp (w :: ws) = w ++ ' ' :: joinSp ws := by
  cases ws with
  | nil => exact absurd rfl h
  | cons w2 ws2 => rfl

theorem wordsAux_ne_nil : ∀ l acc : List Char, wordsAux l acc ≠ [] := by
  intro l
  induction l with
  | nil => intro acc; simp [wordsAux]
  | cons c rest ih =>
    intro acc
    unfold wordsAux
    by_cases hc : c = ' ' <;> simp [hc, ih]

theorem joinSp_wordsAux : ∀ l acc : List Char, joinSp (wordsAux l acc) = acc.reverse ++ l := by
  intro l
  induction l with
  | nil => intro acc; simp [wordsAux, joinSp]
  | cons c rest ih =>
    intro acc
    unfold wordsAux
    by_cases hc : c = ' '
    · subst hc
      rw [if_pos rfl, joinSp_cons_of_ne_nil (wordsAux_ne_nil rest []), ih []]
      simp
    · rw [if_neg hc, ih (c :: acc)]
      simp

/-- `" ".join(x.split(" ")) == x`. -/
theorem joinSp_splitSp (l : List Char) : joinSp (splitSp l) = l := by
  simpa using joinSp_wordsAux l []

theorem mem_wordsAux_spaceFree : ∀ l acc : List Char, ' ' ∉ acc →
    ∀ w ∈ wordsAux l acc, ' ' ∉ w := by
  intro l
  induction l with
  | nil =>
    intro acc hacc w hw
    simp only [wordsAux, List.mem_singleton] at hw
    subst hw
    simpa using hacc
  | cons c rest ih =>
    intro acc hacc w hw
    unfold wordsAux at hw
    by_cases hc : c = ' '
    · rw [if_pos hc] at hw
      rcases List.mem_cons.mp hw with h1 | h1
      · subst h1; simpa using hacc
      · exact ih [] (by simp) w h1
    · rw [if_neg hc] at hw
      refine ih (c :: acc) ?_ w hw
      simp only [List.mem_cons, not_or]
      exact ⟨fun h => hc h.symm, hacc⟩

theorem mem_of_mem_wordsAux : ∀ l acc w : List Char, w ∈ wordsAux l acc →
    ∀ c ∈ w, c ∈ l ∨ c ∈ acc := by
  intro l
  induction l with
  | nil =>
    intro acc w hw c hc
    simp only [wordsAux, List.mem_singleton] at hw
    subst hw
    exact Or.inr (List.mem_reverse.mp hc)
  | cons a rest ih =>
    intro acc w hw c hc
    unfold wordsAux at hw
    by_cases ha : a = ' '
    · rw [if_pos ha] at hw
      rcases List.mem_cons.mp hw with h1 | h1
      · subst h1; exact Or.inr (List.mem_reverse.mp hc)
      · rcases ih [] w h1 c hc with h2 | h2
        · exact Or.inl (List.mem_cons_of_mem a h2)
        · simp at h2
    · rw [if_neg ha] at hw
      rcases ih (a :: acc) w hw c hc with h2 | h2
      · exact Or.inl (List.mem_cons_of_mem a h2)
      · rcases List.mem_cons.mp h2 with h3 | h3
        · exact Or.inl (h3 ▸ List.mem_cons_self a rest)
        · exact Or.inr h3

theorem wordsAux_append_spaceFree : ∀ p l acc : List Char, ' ' ∉ p →
    wordsAux (p ++ l) acc = wordsAux l (p.reverse ++ acc) := by
  intro p
  induction p with
  | nil => intro l acc _; rfl
  | cons c p2 ih =>
    intro l acc hp
    simp only [List.mem_cons, not_or] at hp
    simp only [List.cons_append, wordsAux]
    rw [if_neg (fun h => hp.1 h.symm)]
    show wordsAux (p2 ++ l) (c :: acc) = wordsAux l ((c :: p2).reverse ++ acc)
    rw [ih l (c :: acc) hp.2]
    simp

theorem splitSp_joinSp : ∀ ps : List (List Char), ps ≠ [] → (∀ p ∈ ps, ' ' ∉ p) →
    splitSp (joinSp ps) = ps := by
  intro ps
  induction ps with
  | nil => intro h; exact absurd rfl h
  | cons p ps2 ih =>
    intro _ hsp
    cases ps2 with
    | nil =>
      show wordsAux (joinSp [p]) [] = [p]
      have h1 : joinSp [p] = p ++ [] := by simp [joinSp]
      rw [h1, wordsAux_append_spaceFree p [] [] (hsp p (by simp))]
      simp [wordsAux]
    | cons q ps3 =>
      rw [joinSp_cons_of_ne_nil (by simp)]
      show wordsAux (p ++ ' ' :: joinSp (q :: ps3)) [] = p :: q :: ps3
      rw [wordsAux_append_spaceFree p _ [] (hsp p (by simp))]
      show wordsAux (' ' :: joinSp (q :: ps3)) (p.reverse ++ []) = p :: q :: ps3
      unfold wordsAux
      rw [if_pos rfl]
      have h2 : splitSp (joinSp (q :: ps3)) = q :: ps3 :=
        ih (by simp) (fun r hr => hsp r (List.mem_cons_of_mem p hr))
      simp only [List.append_nil, List.reverse_reverse]
      exact congrArg _ h2

/-! ## Lemmas about `stripL` and `collapseAux` -/

theorem dropWhile_head_false {p : Char → Bool} :
    ∀ {l c t}, List.dropWhile p l = c :: t → p c = false := by
  intro l
  induction l with
  | nil => intro c t h; simp at h
  | cons a rest ih =>
    intro c t h
    rw [List.dropWhile_cons] at h
    by_cases ha : p a = true
    · rw [if_pos ha] at h
      exact ih h
    · rw [if_neg ha] at h
      cases h
      simpa using ha

theorem stripL_head_false : ∀ {l : List Char} {c : Char} {t : List Char},
    stripL l = c :: t → pyIsSpace c = false := by
  intro l c t h
  have hpre : stripL l <+: lstripL l := by
    have hs : (stripL l).reverse <:+ (lstripL l).reverse := by
      unfold stripL
      rw [List.reverse_reverse]
      exact List.dropWhile_suffix pyIsSpace
    exact List.reverse_suffix.mp hs
  obtain ⟨t2, ht2⟩ := hpre
  rw [h] at ht2
  exact dropWhile_head_false (l := l) ht2.symm

theorem stripL_last_false : ∀ {l : List Char} {c : Char} {t : List Char},
    (stripL l).reverse = c :: t → pyIsSpace c = false := by
  intro l c t h
  unfold stripL at h
  rw [List.reverse_reverse] at h
  exact dropWhile_head_false h

theorem stripL_eq_self {l : List Char}
    (h1 : ∀ c t, l = c :: t → pyIsSpace c = false)
    (h2 : ∀ c t, l.reverse = c :: t → pyIsSpace c = false) :
    stripL l = l := by
  have hl : lstripL l = l := by
    cases hc : l with
    | nil => rfl
    | cons a rest =>
      unfold lstripL
      rw [List.dropWhile_cons, if_neg]
      rw [h1 a rest hc]
      simp
  unfold stripL
  rw [hl]
  cases hr : l.reverse with
  | nil =>
    simp at hr
    simp [hr]
  | cons a rest =>
    rw [List.dropWhile_cons, if_neg]
    · rw [← hr, List.reverse_reverse]
    · rw [h2 a rest hr]
      simp

theorem mem_collapseAux : ∀ (l : List Char) (b : Bool) (c : Char),
    c ∈ collapseAux l b → c = ' ' ∨ (c ∈ l ∧ pyIsSpace c = false) := by
  intro l
  induction l with
  | nil => intro b c h; simp [collapseAux] at h
  | cons a rest ih =>
    intro b c h
    unfold collapseAux at h
    by_cases ha : pyIsSpace a = true
    · simp only [ha, if_true] at h
      rcases List.mem_append.mp h with h1 | h1
      · left
        cases b <;> simp_all
      · rcases ih true c h1 with h2 | h2
        · exact Or.inl h2
        · exact Or.inr ⟨List.mem_cons_of_mem a h2.1, h2.2⟩
    · rw [if_neg ha] at h
      rcases List.mem_cons.mp h with h1 | h1
      · subst h1
        exact Or.inr ⟨List.mem_cons_self c rest, by simpa using ha⟩
      · rcases ih false c h1 with h2 | h2
        · exact Or.inl h2
        · exact Or.inr ⟨List.mem_cons_of_mem a h2.1, h2.2⟩

theorem noDouble_collapseAux : ∀ (l : List Char) (b : Bool),
    noDouble (collapseAux l b) = true ∧
      (b = true → ∀ t, collapseAux l b ≠ ' ' :: t) := by
  intro l
  induction l with
  | nil => intro b; simp [collapseAux, noDouble]
  | cons a rest ih =>
    intro b
    unfold collapseAux
    by_cases ha : pyIsSpace a = true
    · rw [if_pos ha]
      cases b with
      | true =>
        simp only [if_true, List.nil_append]
        exact ⟨(ih true).1, fun _ t => (ih true).2 rfl t⟩
      | false =>
        show noDouble (' ' :: collapseAux rest true) = true ∧
            (false = true → ∀ t, ' ' :: collapseAux rest true ≠ ' ' :: t)
        constructor
        · cases hc : collapseAux rest true with
          | nil => simp [noDouble]
          | cons d t2 =>
            have hd : d ≠ ' ' := by
              intro hd
              exact (ih true).2 rfl t2 (by rw [hc, hd])
            show noDouble (' ' :: d :: t2) = true
            unfold noDouble
            simp only [Bool.and_eq_true, Bool.not_eq_true', Bool.and_eq_false_iff]
            refine ⟨?_, hc ▸ (ih true).1⟩
            right
            simpa using hd
        · intro hb
          exact absurd hb (by decide)
    · rw [if_neg ha]
      have hane : a ≠ ' ' := by
        intro h; subst h; simp [pyIsSpace] at ha
      constructor
      · cases hc : collapseAux rest false with
        | nil => simp [noDouble]
        | cons d t2 =>
          show noDouble (a :: d :: t2) = true
          unfold noDouble
          simp only [Bool.and_eq_true, Bool.not_eq_true', Bool.and_eq_false_iff]
          exact ⟨Or.inl (by simpa using hane), hc ▸ (ih false).1⟩
      · intro _ t hcontra
        cases hcontra
        exact hane rfl

theorem collapseAux_cons_not_space {c : Char} {rest : List Char} {b : Bool}
    (h : pyIsSpace c = false) :
    collapseAux (c :: rest) b = c :: collapseAux rest false := by
  simp [collapseAux, h]

theorem noDouble_cons_tail : ∀ {a : Char} {l : List Char},
    noDouble (a :: l) = true → noDouble l = true := by
  intro a l h
  cases l with
  | nil => rfl
  | cons b t =>
    unfold noDouble at h
    exact (Bool.and_eq_true_iff.mp h).2

theorem noDouble_of_spaceFree : ∀ u : List Char, ' ' ∉ u → noDouble u = true := by
  intro u
  induction u with
  | nil => intro _; rfl
  | cons a rest ih =>
    intro h
    simp only [List.mem_cons, not_or] at h
    cases rest with
    | nil => rfl
    | cons b t =>
      unfold noDouble
      rw [ih (by simpa using h.2)]
      simp only [Bool.and_true, Bool.not_eq_true', Bool.and_eq_false_iff]
      left
      simpa using fun he => h.1 he.symm

theorem noDouble_append {q X : List Char} (hq : ' ' ∉ q) (hX : noDouble X = true) :
    noDouble (q ++ X) = true := by
  induction q with
  | nil => simpa using hX
  | cons a q2 ih =>
    simp only [List.mem_cons, not_or] at hq
    have htail : noDouble (q2 ++ X) = true := ih (by simpa using hq.2)
    rw [List.cons_append]
    cases hqx : q2 ++ X with
    | nil => rfl
    | cons b t =>
      unfold noDouble
      have h2 : noDouble (b :: t) = true := hqx ▸ htail
      rw [h2]
      simp only [Bool.and_true, Bool.not_eq_true', Bool.and_eq_false_iff]
      left
      simpa using fun he => hq.1 he.symm

theorem collapseAux_ne_nil : ∀ (l : List Char) (c : Char), c ∈ l → pyIsSpace c = false →
    ∀ b, collapseAux l b ≠ [] := by
  intro l
  induction l with
  | nil => intro c hc; simp at hc
  | cons a rest ih =>
    intro c hc hns b
    unfold collapseAux
    by_cases ha : pyIsSpace a = true
    · rw [if_pos ha]
      have hcr : c ∈ rest := by
        rcases List.mem_cons.mp hc with h1 | h1
        · subst h1; rw [ha] at hns; cases hns
        · exact h1
      cases b with
      | true =>
        simpa using ih c hcr hns true
      | false =>
        simp
    · rw [if_neg ha]
      simp

theorem getLast?_collapseAux : ∀ (l : List Char) (b : Bool),
    (∀ x, l.getLast? = some x → pyIsSpace x = false) →
    ∀ y, (collapseAux l b).getLast? = some y → y ≠ ' ' := by
  intro l
  induction l with
  | nil => intro b _ y hy; simp [collapseAux] at hy
  | cons a rest ih =>
    intro b h y hy
    cases rest with
    | nil =>
      have ha : pyIsSpace a = false := h a rfl
      rw [collapseAux_cons_not_space ha] at hy
      simp only [collapseAux, List.getLast?_singleton, Option.some.injEq] at hy
      subst hy
      intro he
      rw [he] at ha
      simp [pyIsSpace] at ha
    | cons r rs =>
      have hrest : ∀ x, (r :: rs).getLast? = some x → pyIsSpace x = false := by
        intro x hx
        exact h x (by rw [List.getLast?_cons_cons]; exact hx)
      by_cases ha : pyIsSpace a = true
      · unfold collapseAux at hy
        rw [if_pos ha] at hy
        have hne : collapseAux (r :: rs) true ≠ [] := by
          obtain ⟨z, hz⟩ : ∃ z, (r :: rs).getLast? = some z :=
            Option.isSome_iff_exists.mp (List.getLast?_isSome.mpr (by simp))
          exact collapseAux_ne_nil (r :: rs) z (List.mem_of_mem_getLast? hz) (hrest z hz) true
        rw [List.getLast?_append] at hy
        obtain ⟨z, hz⟩ : ∃ z, (collapseAux (r :: rs) true).getLast? = some z :=
          Option.isSome_iff_exists.mp (List.getLast?_isSome.mpr hne)
        rw [hz] at hy
        simp only [Option.or] at hy
        have hyz : y = z := (Option.some.injEq _ _ ▸ hy).symm
        exact hyz ▸ ih true hrest z hz
      · have haf : pyIsSpace a = false := by simpa using ha
        rw [collapseAux_cons_not_space haf] at hy
        cases hc : collapseAux (r :: rs) false with
        | nil =>
          rw [hc] at hy
          simp only [List.getLast?_singleton, Option.some.injEq] at hy
          subst hy
          intro he
          rw [he] at haf
          simp [pyIsSpace] at haf
        | cons d t =>
          rw [hc, List.getLast?_cons_cons] at hy
          exact ih false hrest y (hc ▸ hy)

theorem collapseAux_eq_self : ∀ u : List Char,
    (∀ x ∈ u, pyIsSpace x = false ∨ x = ' ') → noDouble u = true →
    collapseAux u false = u := by
  intro u
  induction u with
  | nil => intro _ _; rfl
  | cons a rest ih =>
    intro hx hd
    by_cases ha : pyIsSpace a = true
    · have hsp : a = ' ' := by
        rcases hx a (List.mem_cons_self a rest) with h1 | h1
        · rw [ha] at h1; cases h1
        · exact h1
      subst hsp
      show collapseAux (' ' :: rest) false = ' ' :: rest
      unfold collapseAux
      rw [if_pos (by decide)]
      show ' ' :: collapseAux rest true = ' ' :: rest
      cases rest with
      | nil => rfl
      | cons d t =>
        have hdd : d ≠ ' ' := by
          unfold noDouble at hd
          have := (Bool.and_eq_true_iff.mp hd).1
          simp only [Bool.not_eq_true', Bool.and_eq_false_iff, decide_eq_false_iff_not] at this
          rcases this with h1 | h1
          · simp at h1
          · exact h1
        have hdns : pyIsSpace d = false := by
          rcases hx d (List.mem_cons_of_mem _ (List.mem_cons_self d t)) with h1 | h1
          · exact h1
          · exact absurd h1 hdd
        have h3 : collapseAux (d :: t) false = d :: t :=
          ih (fun x hx2 => hx x (List.mem_cons_of_mem _ hx2)) (noDouble_cons_tail hd)
        rw [collapseAux_cons_not_space hdns] at h3 ⊢
        simpa using h3
    · have haf : pyIsSpace a = false := by simpa using ha
      rw [collapseAux_cons_not_space haf]
      rw [ih (fun x hx2 => hx x (List.mem_cons_of_mem _ hx2)) (noDouble_cons_tail hd)]

/-! ## Lemmas about `processWord` -/

theorem length_capitalizeL (p : List Char) : (capitalizeL p).length = p.length := by
  cases p with
  | nil => rfl
  | cons c rest => simp [capitalizeL]

theorem length_capPiece (p : List Char) : (capPiece p).length = p.length := by
  unfold capPiece
  split
  · exact length_capitalizeL p
  · rfl

theorem length_processWord (w : List Char) : (processWord w).length = w.length := by
  unfold processWord
  rw [List.length_flatten, List.map_map]
  have h1 : (subSplit w).map (List.length ∘ capPiece) = (subSplit w).map List.length :=
    List.map_congr_left (fun p _ => length_capPiece p)
  rw [h1, ← List.length_flatten, subSplit_flatten]

theorem processWord_ne_nil {w : List Char} (h : w ≠ []) : processWord w ≠ [] := by
  intro hc
  have := length_processWord w
  rw [hc] at this
  exact h (List.length_eq_zero.mp this.symm)

theorem mem_subSplitAux : ∀ (l acc : List Char) (p : List Char), p ∈ subSplitAux l acc →
    ∀ c ∈ p, c ∈ l ∨ c ∈ acc := by
  intro l
  induction l with
  | nil =>
    intro acc p hp c hc
    simp only [subSplitAux, List.mem_singleton] at hp
    subst hp
    exact Or.inr (List.mem_reverse.mp hc)
  | cons a rest ih =>
    intro acc p hp c hc
    unfold subSplitAux at hp
    by_cases ha : isDelim a = true
    · simp only [ha, if_true, List.mem_cons] at hp
      rcases hp with h1 | h1 | h1
      · subst h1; exact Or.inr (List.mem_reverse.mp hc)
      · subst h1
        simp only [List.mem_singleton] at hc
        exact Or.inl (hc ▸ List.mem_cons_self a rest)
      · rcases ih [] p h1 c hc with h2 | h2
        · exact Or.inl (List.mem_cons_of_mem a h2)
        · simp at h2
    · rw [if_neg ha] at hp
      rcases ih (a :: acc) p hp c hc with h2 | h2
      · exact Or.inl (List.mem_cons_of_mem a h2)
      · rcases List.mem_cons.mp h2 with h3 | h3
        · exact Or.inl (h3 ▸ List.mem_cons_self a rest)
        · exact Or.inr h3

theorem mem_capitalizeL {p : List Char} {c : Char} (hc : c ∈ capitalizeL p) :
    ∃ d ∈ p, c = toUpperPy d ∨ c = toLowerPy d := by
  cases p with
  | nil => simp [capitalizeL] at hc
  | cons a rest =>
    unfold capitalizeL at hc
    rcases List.mem_cons.mp hc with h1 | h1
    · exact ⟨a, List.mem_cons_self a rest, Or.inl h1⟩
    · obtain ⟨d, hd, hdc⟩ := List.mem_map.mp h1
      exact ⟨d, List.mem_cons_of_mem a hd, Or.inr hdc.symm⟩

/-- An all-alphabetic piece stays all-alphabetic under `capitalizeL`. -/
theorem isalphaL_capitalizeL {p : List Char} (h : isalphaL p = true) :
    isalphaL (capitalizeL p) = true := by
  unfold isalphaL at h ⊢
  simp only [Bool.and_eq_true] at h ⊢
  obtain ⟨hne, hall⟩ := h
  cases p with
  | nil => simp at hne
  | cons a rest =>
    refine ⟨by simp [capitalizeL], ?_⟩
    unfold capitalizeL
    rw [List.all_cons]
    simp only [Bool.and_eq_true]
    simp only [List.all_eq_true] at hall ⊢
    constructor
    · rw [isAlphaPy_toUpperPy]
      exact hall a (List.mem_cons_self a rest)
    · intro x hx
      obtain ⟨d, hd, hdx⟩ := List.mem_map.mp hx
      rw [← hdx, isAlphaPy_toLowerPy]
      exact hall d (List.mem_cons_of_mem a hd)

/-- Characters of `capPiece p` are characters of `p` or case-mapped
alphabetic characters. -/
theorem wsFree_capPiece {p : List Char} (h : wsFree p) : wsFree (capPiece p) := by
  unfold capPiece
  split
  · next halpha =>
    intro c hc
    obtain ⟨d, hd, hcase⟩ := mem_capitalizeL hc
    have hda : isAlphaPy d = true := by
      unfold isalphaL at halpha
      simp only [Bool.and_eq_true, List.all_eq_true] at halpha
      exact halpha.2 d hd
    rcases hcase with h1 | h1
    · subst h1
      exact not_space_of_isAlphaPy (by rw [isAlphaPy_toUpperPy]; exact hda)
    · subst h1
      exact not_space_of_isAlphaPy (by rw [isAlphaPy_toLowerPy]; exact hda)
  · exact h

theorem wsFree_processWord {w : List Char} (h : wsFree w) : wsFree (processWord w) := by
  intro c hc
  unfold processWord at hc
  obtain ⟨q, hq, hcq⟩ := List.mem_flatten.mp hc
  obtain ⟨p, hp, hpq⟩ := List.mem_map.mp hq
  have hpfree : wsFree p := by
    intro x hx
    rcases mem_subSplitAux w [] p hp x hx with h1 | h1
    · exact h x h1
    · simp at h1
  exact wsFree_capPiece hpfree c (hpq ▸ hcq)

/-! ## Idempotence of `processWord` -/

theorem altPieces_subSplitAux : ∀ l acc : List Char, delimFree acc →
    AltPieces (subSplitAux l acc) := by
  intro l
  induction l with
  | nil =>
    intro acc hacc
    exact .last _ (fun c hc => hacc c (List.mem_reverse.mp hc))
  | cons a rest ih =>
    intro acc hacc
    unfold subSplitAux
    by_cases ha : isDelim a = true
    · simp only [ha, if_true]
      exact .cons _ a _ (fun c hc => hacc c (List.mem_reverse.mp hc)) ha
        (ih [] (fun c hc => absurd hc (List.not_mem_nil c)))
    · rw [if_neg ha]
      refine ih (a :: acc) ?_
      intro c hc
      rcases List.mem_cons.mp hc with h1 | h1
      · subst h1; simpa using ha
      · exact hacc c h1

theorem altPieces_subSplit (w : List Char) : AltPieces (subSplit w) :=
  altPieces_subSplitAux w [] (fun c hc => absurd hc (List.not_mem_nil c))

theorem subSplitAux_append_delimFree : ∀ p l acc : List Char, delimFree p →
    subSplitAux (p ++ l) acc = subSplitAux l (p.reverse ++ acc) := by
  intro p
  induction p with
  | nil => intro l acc _; rfl
  | cons c p2 ih =>
    intro l acc hp
    simp only [List.cons_append, subSplitAux]
    rw [if_neg (by rw [hp c (List.mem_cons_self c p2)]; simp)]
    show subSplitAux (p2 ++ l) (c :: acc) = subSplitAux l ((c :: p2).reverse ++ acc)
    rw [ih l (c :: acc) (fun x hx => hp x (List.mem_cons_of_mem c hx))]
    simp

theorem subSplit_flatten_altPieces : ∀ {qs : List (List Char)}, AltPieces qs →
    subSplit qs.flatten = qs := by
  intro qs h
  induction h with
  | last p hp =>
    show subSplit ([p].flatten) = [p]
    have h1 : [p].flatten = p ++ [] := by simp
    rw [h1]
    unfold subSplit
    rw [subSplitAux_append_delimFree p [] [] hp]
    simp [subSplitAux]
  | cons p d rest hp hd hrest ih =>
    show subSplit ((p :: [d] :: rest).flatten) = p :: [d] :: rest
    have h1 : (p :: [d] :: rest).flatten = p ++ d :: rest.flatten := by simp
    rw [h1]
    unfold subSplit
    rw [subSplitAux_append_delimFree p _ [] hp]
    show subSplitAux (d :: rest.flatten) (p.reverse ++ []) = p :: [d] :: rest
    unfold subSplitAux
    rw [if_pos hd]
    simp only [List.append_nil, List.reverse_reverse]
    exact congrArg _ (congrArg _ ih)

theorem capPiece_delim_singleton {d : Char} (hd : isDelim d = true) : capPiece [d] = [d] := by
  have hda : isAlphaPy d = false := by
    cases h : isAlphaPy d
    · rfl
    · rw [not_delim_of_isAlphaPy h] at hd
      cases hd
  simp [capPiece, isalphaL, hda]

theorem delimFree_capPiece {p : List Char} (h : delimFree p) : delimFree (capPiece p) := by
  unfold capPiece
  split
  · next halpha =>
    intro c hc
    obtain ⟨d, hd, hcase⟩ := mem_capitalizeL hc
    have hda : isAlphaPy d = true := by
      unfold isalphaL at halpha
      simp only [Bool.and_eq_true, List.all_eq_true] at halpha
      exact halpha.2 d hd
    rcases hcase with h1 | h1
    · subst h1
      exact not_delim_of_isAlphaPy (by rw [isAlphaPy_toUpperPy]; exact hda)
    · subst h1
      exact not_delim_of_isAlphaPy (by rw [isAlphaPy_toLowerPy]; exact hda)
  · exact h

theorem altPieces_map_capPiece {qs : List (List Char)} (h : AltPieces qs) :
    AltPieces (qs.map capPiece) := by
  induction h with
  | last p hp => exact .last _ (delimFree_capPiece hp)
  | cons p d rest hp hd hrest ih =>
    simp only [List.map_cons]
    rw [capPiece_delim_singleton hd]
    exact .cons _ d _ (delimFree_capPiece hp) hd ih

theorem capitalizeL_capitalizeL (p : List Char) : capitalizeL (capitalizeL p) = capitalizeL p := by
  cases p with
  | nil => rfl
  | cons a rest =>
    show toUpperPy (toUpperPy a) :: (rest.map toLowerPy).map toLowerPy =
      toUpperPy a :: rest.map toLowerPy
    rw [toUpperPy_toUpperPy, List.map_map]
    exact congrArg _ (List.map_congr_left (fun x _ => toLowerPy_toLowerPy x))

theorem capPiece_capPiece (p : List Char) : capPiece (capPiece p) = capPiece p := by
  by_cases h : isalphaL p = true
  · have h1 : capPiece p = capitalizeL p := by unfold capPiece; rw [if_pos h]
    rw [h1]
    have h2 : capPiece (capitalizeL p) = capitalizeL (capitalizeL p) := by
      unfold capPiece; rw [if_pos (isalphaL_capitalizeL h)]
    rw [h2, capitalizeL_capitalizeL]
  · have h1 : capPiece p = p := by unfold capPiece; rw [if_neg h]
    rw [h1, h1]

theorem processWord_processWord (w : List Char) :
    processWord (processWord w) = processWord w := by
  have hq : AltPieces ((subSplit w).map capPiece) :=
    altPieces_map_capPiece (altPieces_subSplit w)
  have h1 : subSplit (processWord w) = (subSplit w).map capPiece :=
    subSplit_flatten_altPieces hq
  calc processWord (processWord w)
      = ((subSplit (processWord w)).map capPiece).flatten := rfl
    _ = (((subSplit w).map capPiece).map capPiece).flatten := by rw [h1]
    _ = ((subSplit w).map capPiece).flatten := by
        rw [List.map_map]
        exact congrArg _ (List.map_congr_left (fun p _ => capPiece_capPiece p))
    _ = processWord w := rfl

/-! ## Shape of the output of `normalize_name` -/

theorem joinSp_eq_head_append (p : List Char) (rest : List (List Char)) :
    ∃ X, joinSp (p :: rest) = p ++ X := by
  cases rest with
  | nil => exact ⟨[], by simp [joinSp]⟩
  | cons q ps => exact ⟨' ' :: joinSp (q :: ps), rfl⟩

theorem mem_joinSp : ∀ (ps : List (List Char)) (c : Char), c ∈ joinSp ps →
    c = ' ' ∨ ∃ p ∈ ps, c ∈ p := by
  intro ps
  induction ps with
  | nil => intro c hc; simp [joinSp] at hc
  | cons p rest ih =>
    intro c hc
    cases rest with
    | nil => exact Or.inr ⟨p, by simp, by simpa [joinSp] using hc⟩
    | cons q ps2 =>
      rw [joinSp_cons_of_ne_nil (by simp)] at hc
      rcases List.mem_append.mp hc with h1 | h1
      · exact Or.inr ⟨p, by simp, h1⟩
      · rcases List.mem_cons.mp h1 with h2 | h2
        · exact Or.inl h2
        · rcases ih c h2 with h3 | ⟨r, hr, hcr⟩
          · exact Or.inl h3
          · exact Or.inr ⟨r, List.mem_cons_of_mem p hr, hcr⟩

theorem getLast?_joinSp : ∀ ps : List (List Char), ps ≠ [] → (∀ p ∈ ps, p ≠ []) →
    ∃ c, (joinSp ps).getLast? = some c ∧ ∃ p ∈ ps, c ∈ p := by
  intro ps
  induction ps with
  | nil => intro h _; exact absurd rfl h
  | cons p rest ih =>
    intro _ hne
    cases rest with
    | nil =>
      obtain ⟨c, hc⟩ := Option.isSome_iff_exists.mp (List.getLast?_isSome.mpr (hne p (by simp)))
      exact ⟨c, by simpa [joinSp] using hc, p, by simp, List.mem_of_mem_getLast? hc⟩
    | cons q ps2 =>
      obtain ⟨c, hc, r, hr, hcr⟩ := ih (by simp) (fun x hx => hne x (List.mem_cons_of_mem p hx))
      refine ⟨c, ?_, r, List.mem_cons_of_mem p hr, hcr⟩
      have hj : joinSp (q :: ps2) ≠ [] := by
        intro h0
        rw [h0] at hc
        simp at hc
      have h2 : (' ' :: joinSp (q :: ps2)).getLast? = (joinSp (q :: ps2)).getLast? := by
        cases hjj : joinSp (q :: ps2) with
        | nil => exact absurd hjj hj
        | cons a t => rw [List.getLast?_cons_cons]
      rw [joinSp_cons_of_ne_nil (by simp), List.getLast?_append, h2, hc]
      simp [Option.or]

theorem noDouble_joinSp : ∀ ps : List (List Char), (∀ p ∈ ps, p ≠ [] ∧ ' ' ∉ p) →
    noDouble (joinSp ps) = true := by
  intro ps
  induction ps with
  | nil => intro _; rfl
  | cons p rest ih =>
    intro h
    cases rest with
    | nil =>
      show noDouble (joinSp [p]) = true
      simp only [joinSp]
      exact noDouble_of_spaceFree p (h p (by simp)).2
    | cons q ps2 =>
      rw [joinSp_cons_of_ne_nil (by simp)]
      refine noDouble_append (h p (by simp)).2 ?_
      obtain ⟨c1, t1, hq1⟩ : ∃ c t, q = c :: t := by
        cases hqq : q with
        | nil => exact absurd hqq (h q (by simp)).1
        | cons a t => exact ⟨a, t, rfl⟩
      obtain ⟨X, hX⟩ := joinSp_eq_head_append q ps2
      have hJ : joinSp (q :: ps2) = c1 :: (t1 ++ X) := by
        rw [hX, hq1]
        rfl
      rw [hJ]
      show noDouble (' ' :: c1 :: (t1 ++ X)) = true
      unfold noDouble
      simp only [Bool.and_eq_true, Bool.not_eq_true', Bool.and_eq_false_iff]
      constructor
      · right
        have hc1 : c1 ≠ ' ' := by
          have hqin : ' ' ∉ q := (h q (by simp)).2
          rw [hq1] at hqin
          simp only [List.mem_cons, not_or] at hqin
          exact fun he => hqin.1 he.symm
        simpa using hc1
      · have h3 := ih (fun r hr => h r (List.mem_cons_of_mem p hr))
        rw [hJ] at h3
        exact h3

theorem wordsAux_words_ne_nil : ∀ m acc : List Char,
    (acc ≠ [] ∨ ∃ c t, m = c :: t ∧ c ≠ ' ') →
    noDouble m = true →
    (∀ x, m.getLast? = some x → x ≠ ' ') →
    ∀ w ∈ wordsAux m acc, w ≠ [] := by
  intro m
  induction m with
  | nil =>
    intro acc hstart _ _ w hw
    simp only [wordsAux, List.mem_singleton] at hw
    subst hw
    rcases hstart with h1 | ⟨c, t, hct, _⟩
    · simpa using h1
    · cases hct
  | cons a rest ih =>
    intro acc hstart hnd hlast w hw
    unfold wordsAux at hw
    by_cases ha : a = ' '
    · rw [if_pos ha] at hw
      have hacc : acc ≠ [] := by
        rcases hstart with h1 | ⟨c, t, hct, hc⟩
        · exact h1
        · cases hct
          exact absurd ha hc
      rcases List.mem_cons.mp hw with h1 | h1
      · subst h1; simpa using hacc
      · subst ha
        cases rest with
        | nil => exact absurd rfl (hlast ' ' (by simp))
        | cons d t =>
          have hd : d ≠ ' ' := by
            unfold noDouble at hnd
            have h4 := (Bool.and_eq_true_iff.mp hnd).1
            simp only [Bool.not_eq_true', Bool.and_eq_false_iff, decide_eq_false_iff_not] at h4
            rcases h4 with h5 | h5
            · simp at h5
            · exact h5
          refine ih [] (Or.inr ⟨d, t, rfl, hd⟩) (noDouble_cons_tail hnd) ?_ w h1
          intro x hx
          refine hlast x ?_
          rw [List.getLast?_cons_cons]
          exact hx
    · rw [if_neg ha] at hw
      refine ih (a :: acc) (Or.inl (by simp)) (noDouble_cons_tail hnd) ?_ w hw
      intro x hx
      cases rest with
      | nil => simp at hx
      | cons d t =>
        refine hlast x ?_
        rw [List.getLast?_cons_cons]
        exact hx

/-- The core of idempotence: the output of the `normalize_name`
pipeline is a fixed point of the pipeline. -/
theorem normalize_nameL_idem (l : List Char) :
    normalize_nameL (normalize_nameL l) = normalize_nameL l := by
  by_cases hs : stripL l = []
  · have h0 : normalize_nameL l = [] := by
      unfold normalize_nameL
      rw [hs]
      decide
    rw [h0]
    decide
  · set m := collapseAux (stripL l) false with hm
    set ws := splitSp m with hws
    set ps := ws.map processWord with hps
    set out := joinSp ps with hout
    obtain ⟨c0, t0, hct⟩ : ∃ c t, stripL l = c :: t := by
      cases hsl : stripL l with
      | nil => exact absurd hsl hs
      | cons a t => exact ⟨a, t, rfl⟩
    have hc0 : pyIsSpace c0 = false := stripL_head_false hct
    have hc0ne : c0 ≠ ' ' := by
      intro he
      rw [he] at hc0
      simp [pyIsSpace] at hc0
    have hmhead : m = c0 :: collapseAux t0 false := by
      rw [hm, hct]
      exact collapseAux_cons_not_space hc0
    have hmchars : ∀ x ∈ m, x = ' ' ∨ pyIsSpace x = false := by
      intro x hx
      rcases mem_collapseAux (stripL l) false x (hm ▸ hx) with h1 | h1
      · exact Or.inl h1
      · exact Or.inr h1.2
    have hmnd : noDouble m = true := (noDouble_collapseAux (stripL l) false).1
    have hmlast : ∀ y, m.getLast? = some y → y ≠ ' ' := by
      refine getLast?_collapseAux (stripL l) false ?_
      intro x hx
      rw [← List.head?_reverse] at hx
      cases hrr : (stripL l).reverse with
      | nil => rw [hrr] at hx; cases hx
      | cons a t =>
        rw [hrr] at hx
        cases hx
        exact stripL_last_false hrr
    have hwsne : ws ≠ [] := wordsAux_ne_nil m []
    have hw_spacefree : ∀ w ∈ ws, ' ' ∉ w :=
      fun w hw => mem_wordsAux_spaceFree m [] (by simp) w hw
    have hw_wsfree : ∀ w ∈ ws, wsFree w := by
      intro w hw c hc
      rcases mem_of_mem_wordsAux m [] w hw c hc with h1 | h1
      · rcases hmchars c h1 with h2 | h2
        · exact absurd (h2 ▸ hc) (hw_spacefree w hw)
        · exact h2
      · simp at h1
    have hw_ne : ∀ w ∈ ws, w ≠ [] := by
      refine wordsAux_words_ne_nil m [] ?_ hmnd hmlast
      exact Or.inr ⟨c0, collapseAux t0 false, hmhead, hc0ne⟩
    have hpsne : ps ≠ [] := by
      cases hws2 : ws with
      | nil => exact absurd hws2 hwsne
      | cons a t =>
        rw [hps, hws2]
        simp
    have hps_ne : ∀ p ∈ ps, p ≠ [] := by
      intro p hp
      obtain ⟨w, hw, hwp⟩ := List.mem_map.mp (hps ▸ hp)
      exact hwp ▸ processWord_ne_nil (hw_ne w hw)
    have hps_wsfree : ∀ p ∈ ps, wsFree p := by
      intro p hp
      obtain ⟨w, hw, hwp⟩ := List.mem_map.mp (hps ▸ hp)
      exact hwp ▸ wsFree_processWord (hw_wsfree w hw)
    have hps_spacefree : ∀ p ∈ ps, ' ' ∉ p := by
      intro p hp hsp
      have h2 := hps_wsfree p hp ' ' hsp
      simp [pyIsSpace] at h2
    obtain ⟨p1, ps2, hps12⟩ : ∃ p1 ps2, ps = p1 :: ps2 := by
      cases hps2 : ps with
      | nil => exact absurd hps2 hpsne
      | cons a t => exact ⟨a, t, rfl⟩
    obtain ⟨c1, t1, hp1⟩ : ∃ c1 t1, p1 = c1 :: t1 := by
      cases hp2 : p1 with
      | nil => exact absurd hp2 (hps_ne p1 (by rw [hps12]; simp))
      | cons a t => exact ⟨a, t, rfl⟩
    have hc1 : pyIsSpace c1 = false :=
      hps_wsfree p1 (by rw [hps12]; simp) c1 (by rw [hp1]; simp)
    obtain ⟨X, hX⟩ := joinSp_eq_head_append p1 ps2
    have hout_hd : out = c1 :: (t1 ++ X) := by
      rw [hout, hps12, hX, hp1]
      rfl
    have hout_head : ∀ c t, out = c :: t → pyIsSpace c = false := by
      intro c t h
      rw [hout_hd] at h
      cases h
      exact hc1
    have hout_last : ∀ c t, out.reverse = c :: t → pyIsSpace c = false := by
      obtain ⟨cL, hcL, p, hp, hcp⟩ := getLast?_joinSp ps hpsne hps_ne
      intro c t h
      have h1 : out.getLast? = some c := by
        rw [List.getLast?_eq_head?_reverse, h]
        rfl
      rw [hout, hcL] at h1
      cases h1
      exact hps_wsfree p hp cL hcp
    have g1 : stripL out = out := stripL_eq_self hout_head hout_last
    have g2 : collapseAux out false = out := by
      refine collapseAux_eq_self out ?_ ?_
      · intro x hx
        rcases mem_joinSp ps x (hout ▸ hx) with h1 | ⟨p, hp, hxp⟩
        · exact Or.inr h1
        · exact Or.inl (hps_wsfree p hp x hxp)
      · rw [hout]
        exact noDouble_joinSp ps (fun p hp => ⟨hps_ne p hp, hps_spacefree p hp⟩)
    have g3 : splitSp out = ps := by
      rw [hout]
      exact splitSp_joinSp ps hpsne hps_spacefree
    have g4 : ps.map processWord = ps := by
      rw [hps, List.map_map]
      exact List.map_congr_left (fun w _ => processWord_processWord w)
    have hnl : normalize_nameL l = out := by
      unfold normalize_nameL
      rw [hout, hps, hws, hm]
    calc normalize_nameL (normalize_nameL l)
        = normalize_nameL out := by rw [hnl]
      _ = out := by
          unfold normalize_nameL
          rw [g1, g2, g3, g4]
      _ = normalize_nameL l := hnl.symm

/-! ## Handler helper lemmas -/

theorem emailMissing_eq_false {em : String} (h : em ≠ "") :
    emailMissing (some em) = false := by
  simp [emailMissing, h]

theorem hubspot_cleaner_pre_valid {data : Inbound} (h : emailMissing data.email = false) :
    hubspot_cleaner_pre data = .callUpstream
      ⟨normalize_name (some (split_name data.name).1),
       normalize_name (some (split_name data.name).2),
       data.email.getD "", normalize_phone data.phone⟩ := by
  unfold hubspot_cleaner_pre
  rw [h]
  simp

theorem normalize_name_some (s : String) :
    normalize_name (some s) =
      if s = "" then "" else String.mk (normalize_nameL s.toList) := rfl

theorem split_name_some (s : String) :
    split_name (some s) =
      if s = "" then ("", "")
      else if stripL s.toList = [] then ("", "")
      else
        match firstSpace (stripL s.toList) with
        | none => (String.mk (stripL s.toList), "")
        | some i =>
          (String.mk ((stripL s.toList).take i),
           String.mk (stripL ((stripL s.toList).drop (i + 1)))) := rfl

/-! ## The claims -/

/-- C1: for a Variant A body `{firstname, lastname, email, phone}` with a
non-empty email, the handler (modelled from the spec, see
`hubspot_cleaner_A_pre`) uses the given `firstname`/`lastname` fields,
normalized, in the upstream payload; in particular the spec's scenario 1
payload is `{"firstname":"Jane","lastname":"Doe","email":"jane@x.com",
"phone":"+15551234567"}`, and with upstream status 201 the response is
HTTP 200 with the OK body. -/
theorem C1_variant_a_end_to_end :
    (∀ (fn ln ph : Option String) (em : String), em ≠ "" →
      hubspot_cleaner_A_pre ⟨fn, ln, some em, ph⟩ =
        PreResult.callUpstream
          ⟨normalize_name fn, normalize_name ln, em, normalize_phone ph⟩) ∧
    hubspot_cleaner_A_pre ⟨some "jane", some "doe", some "jane@x.com", some "(555) 123-4567"⟩ =
      PreResult.callUpstream ⟨"Jane", "Doe", "jane@x.com", "+15551234567"⟩ ∧
    hubspot_cleaner_A ⟨some "jane", some "doe", some "jane@x.com", some "(555) 123-4567"⟩
      (fun _ => (201, "")) = (200, RespBody.message "OK") := by
  refine ⟨?_, by decide, by decide⟩
  intro fn ln ph em h
  unfold hubspot_cleaner_A_pre
  rw [emailMissing_eq_false h]
  simp

theorem C1_variant_a_end_to_end_witness :
    hubspot_cleaner_A_pre ⟨none, none, some "a@b.c", none⟩ =
      PreResult.callUpstream
        ⟨normalize_name none, normalize_name none, "a@b.c", normalize_phone none⟩ :=
  C1_variant_a_end_to_end.1 none none none "a@b.c" (by decide)

/-- C2: the code does NOT strip a full `extension NN` marker.  Because the
alternative `ext\.?` precedes `extension` in the pattern, Python removes
only `ext` from `"555-1234 extension 22"`, leaving `"ension 22"`, so the
digits `22` survive into the result `"+555123422"` (the claim expects
digit string `"5551234"`).  The `"ext. 22"` form works as claimed. -/
theorem C2_extension_digits_survive :
    normalize_phone (some "555-1234 extension 22") = "+555123422" ∧
    normalize_phone (some "555-1234 ext. 22") = "+5551234" := by
  decide

/-- C3: `normalize_phone` implements exactly the specified case analysis
on the digit string: empty digits give `""`; on a pure digit string,
10 digits get `"1"` prepended, more than 11 digits starting `"00"` lose
the `"00"`, anything else passes through, always with a `"+"` prefix;
in particular every 10-digit input maps to `"+1"` followed by it. -/
theorem C3_phone_case_analysis :
    (∀ s : String, (stripExt s.toList).filter Char.isDigit = [] →
      normalize_phone (some s) = "") ∧
    (∀ s : String, (∀ c ∈ s.toList, c.isDigit = true) →
      normalize_phone (some s) =
        if s.toList = [] then ""
        else if s.toList.length = 10 then String.mk ('+' :: '1' :: s.toList)
        else if 11 < s.toList.length ∧ s.toList.take 2 = ['0', '0'] then
          String.mk ('+' :: s.toList.drop 2)
        else String.mk ('+' :: s.toList)) ∧
    (∀ s : String, (∀ c ∈ s.toList, c.isDigit = true) → s.toList.length = 10 →
      normalize_phone (some s) = "+1" ++ s) := by
  refine ⟨?_, ?_, ?_⟩
  · intro s h
    obtain ⟨l⟩ := s
    by_cases hl : l = []
    · subst hl; decide
    · have hne : String.mk l ≠ "" := fun he => hl (congrArg String.data he)
      simp only [normalize_phone, String.toList] at h ⊢
      rw [if_neg hne]
      simp [h]
  · intro s h
    obtain ⟨l⟩ := s
    exact normalize_phone_all_digits h
  · intro s h h10
    obtain ⟨l⟩ := s
    have h2 := normalize_phone_all_digits (l := l) h
    have hl : l ≠ [] := by
      intro he
      subst he
      simp at h10
    have h10l : l.length = 10 := h10
    rw [h2, if_neg hl, if_pos h10l]
    rfl

theorem C3_phone_case_analysis_witness :
    normalize_phone (some "5551234567") = "+1" ++ "5551234567" :=
  C3_phone_case_analysis.2.2 "5551234567" (by decide) (by decide)

/-- C4: a request whose email field is absent or empty gets HTTP 400 with
body `{"error":"Missing email"}`, and the handler's pre-phase ends in
`PreResult.respond`, i.e. no upstream call is made (the full handler's
result is independent of the upstream oracle). -/
theorem C4_missing_email (data : Inbound) (up : ContactProps → Nat × String)
    (h : data.email = none ∨ data.email = some "") :
    hubspot_cleaner_pre data = PreResult.respond 400 (RespBody.err "Missing email") ∧
    hubspot_cleaner data up = (400, RespBody.err "Missing email") := by
  have hm : emailMissing data.email = true := by
    rcases h with h1 | h1 <;> rw [h1] <;> rfl
  have h1 : hubspot_cleaner_pre data = .respond 400 (.err "Missing email") := by
    unfold hubspot_cleaner_pre
    rw [hm]
    simp
  refine ⟨h1, ?_⟩
  unfold hubspot_cleaner
  rw [h1]

theorem C4_missing_email_witness :
    hubspot_cleaner_pre ⟨some "bob smith", some "", some "555"⟩ =
      PreResult.respond 400 (RespBody.err "Missing email") ∧
    hubspot_cleaner ⟨some "bob smith", some "", some "555"⟩ (fun _ => (201, "")) =
      (400, RespBody.err "Missing email") :=
  C4_missing_email ⟨some "bob smith", some "", some "555"⟩ (fun _ => (201, "")) (Or.inr rfl)

/-- C5 (counterexample): the claim says the upstream status is echoed in
the `details` of the 500 response; in fact the body is exactly
`{"error":"HubSpot error","details":<upstream body>}` and the status
`503` appears nowhere in it. -/
theorem C5_counterexample_status_not_in_details :
    hubspot_cleaner ⟨some "bob smith", some "bob@x.com", none⟩
        (fun _ => (503, "Service Unavailable")) =
      (500, RespBody.errDetails "HubSpot error" "Service Unavailable") ∧
    containsSub ("HubSpot error".toList ++ "Service Unavailable".toList) "503".toList
      = false := by
  decide

/-- C5 (amended): for a validated request, upstream status 200 or 201
maps to HTTP 200 with the OK body, and any other status maps to HTTP 500
with body `{"error":"HubSpot error","details":<upstream body>}` — the
upstream body is echoed in `details`, the status is not part of the
response. -/
theorem C5_upstream_status_mapping (name phone : Option String) (em : String)
    (st : Nat) (body : String) (h : em ≠ "") :
    hubspot_cleaner ⟨name, some em, phone⟩ (fun _ => (st, body)) =
      if st = 200 ∨ st = 201 then (200, RespBody.message "OK")
      else (500, RespBody.errDetails "HubSpot error" body) := by
  unfold hubspot_cleaner
  rw [hubspot_cleaner_pre_valid (emailMissing_eq_false h)]
  show hubspot_cleaner_post st body =
    if st = 200 ∨ st = 201 then (200, RespBody.message "OK")
    else (500, RespBody.errDetails "HubSpot error" body)
  rfl

theorem C5_upstream_status_mapping_witness :
    hubspot_cleaner ⟨some "bob smith", some "bob@x.com", none⟩ (fun _ => (503, "down")) =
      if (503 : Nat) = 200 ∨ (503 : Nat) = 201 then (200, RespBody.message "OK")
      else (500, RespBody.errDetails "HubSpot error" "down") :=
  C5_upstream_status_mapping (some "bob smith") none "bob@x.com" 503 "down" (by decide)

/-- C6: `normalize_name` trims, collapses internal whitespace runs,
splits on spaces, splits tokens at hyphen/apostrophe boundaries keeping
the delimiters, capitalizes alphabetic sub-tokens and rejoins: on the
spec's example `"  john   o'brien-smith "` (spelled with explicit
characters, `apos` being the apostrophe) it yields
`"John O'Brien-Smith"`; absent or empty input yields `""`; mixed
whitespace runs collapse to single spaces. -/
theorem C6_normalize_name_pipeline :
    normalize_name (some (String.mk
      [' ', ' ', 'j', 'o', 'h', 'n', ' ', ' ', ' ',
       'o', apos, 'b', 'r', 'i', 'e', 'n', '-', 's', 'm', 'i', 't', 'h', ' '])) =
      String.mk ['J', 'o', 'h', 'n', ' ', 'O', apos, 'B', 'r', 'i', 'e', 'n', '-',
                 'S', 'm', 'i', 't', 'h'] ∧
    normalize_name none = "" ∧
    normalize_name (some "") = "" ∧
    normalize_name (some "john\t\n ja-ne") = "John Ja-Ne" := by
  decide

/-- C7: `normalize_name` is idempotent:
`normalize_name (normalize_name x) = normalize_name x` for every input,
including the absent one. -/
theorem C7_normalize_name_idempotent (x : Option String) :
    normalize_name (some (normalize_name x)) = normalize_name x := by
  cases x with
  | none => decide
  | some s =>
    by_cases hs : s = ""
    · subst hs; decide
    · have h1 : normalize_name (some s) = String.mk (normalize_nameL s.toList) := by
        rw [normalize_name_some, if_neg hs]
      rw [h1]
      by_cases h2 : String.mk (normalize_nameL s.toList) = ""
      · rw [h2]
        decide
      · rw [normalize_name_some, if_neg h2]
        show String.mk (normalize_nameL (normalize_nameL s.toList)) =
          String.mk (normalize_nameL s.toList)
        rw [normalize_nameL_idem]

/-- C8: `split_name` trims its input; an all-whitespace or absent input
gives `("", "")`; with no space the whole trimmed string is the first
name and the last name is empty; otherwise the part before the first
space is the first name and the part after it, trimmed, is the last
name.  The spec's three examples evaluate as stated. -/
theorem C8_split_name_first_space :
    (∀ s : String, stripL s.toList = [] → split_name (some s) = ("", "")) ∧
    (∀ s : String, ' ' ∉ stripL s.toList → stripL s.toList ≠ [] →
      split_name (some s) = (String.mk (stripL s.toList), "")) ∧
    (∀ (s : String) (pre post : List Char),
      stripL s.toList = pre ++ ' ' :: post → ' ' ∉ pre →
      split_name (some s) = (String.mk pre, String.mk (stripL post))) ∧
    split_name (some "Mary Ann Smith") = ("Mary", "Ann Smith") ∧
    split_name (some "Madonna") = ("Madonna", "") ∧
    split_name (some "") = ("", "") := by
  refine ⟨?_, ?_, ?_, by decide, by decide, by decide⟩
  · intro s h
    rw [split_name_some]
    by_cases hl : s = ""
    · rw [if_pos hl]
    · rw [if_neg hl, if_pos h]
  · intro s h hne
    have hs : s ≠ "" := by
      intro he
      rw [he] at hne
      exact hne rfl
    rw [split_name_some, if_neg hs, if_neg hne, firstSpace_eq_none h]
  · intro s pre post hsp hpre
    have hne : stripL s.toList ≠ [] := by
      rw [hsp]
      simp
    have hs : s ≠ "" := by
      intro he
      rw [he] at hsp
      simp [stripL, lstripL] at hsp
    rw [split_name_some, if_neg hs, if_neg hne, hsp, firstSpace_append hpre]
    show (String.mk ((pre ++ ' ' :: post).take pre.length),
          String.mk (stripL ((pre ++ ' ' :: post).drop (pre.length + 1)))) =
      (String.mk pre, String.mk (stripL post))
    have htake : (pre ++ ' ' :: post).take pre.length = pre := List.take_left pre _
    have hdrop : (pre ++ ' ' :: post).drop (pre.length + 1) = post := by
      have ha : pre ++ ' ' :: post = (pre ++ [' ']) ++ post := by simp
      have hb : pre.length + 1 = (pre ++ [' ']).length := by simp
      rw [ha, hb, List.drop_left]
    rw [htake, hdrop]

theorem C8_split_name_first_space_witness :
    split_name (some "jo an") = (String.mk ['j', 'o'], String.mk (stripL ['a', 'n'])) :=
  C8_split_name_first_space.2.2.1 "jo an" ['j', 'o'] ['a', 'n'] (by decide) (by decide)

/-- C9: the three normalizers are total Lean functions into `String`
(respectively `String × String`), which is the shallow-embedding form of
"never throws, never returns null"; on absent (`none`) or empty input
each returns the empty string (pair). -/
theorem C9_normalizers_total_empty_safe :
    normalize_phone none = "" ∧ normalize_phone (some "") = "" ∧
    normalize_name none = "" ∧ normalize_name (some "") = "" ∧
    split_name none = ("", "") ∧ split_name (some "") = ("", "") := by
  decide

/-- C10: any sub-token containing a non-alphabetic character is left
entirely unchanged by the capitalization step (`capPiece`), and hence
by `normalize_name`: `"john j. smith"` keeps `"j."` lower-case and
`"4chan"` is unchanged. -/
theorem C10_nonalpha_subtoken_unchanged :
    (∀ p : List Char, (∃ c ∈ p, isAlphaPy c = false) → capPiece p = p) ∧
    normalize_name (some "john j. smith") = "John j. Smith" ∧
    normalize_name (some "4chan") = "4chan" := by
  refine ⟨?_, by decide, by decide⟩
  intro p hp
  obtain ⟨c, hc, hca⟩ := hp
  have hna : ¬isalphaL p = true := by
    intro halpha
    unfold isalphaL at halpha
    simp only [Bool.and_eq_true, List.all_eq_true] at halpha
    rw [halpha.2 c hc] at hca
    cases hca
  unfold capPiece
  rw [if_neg hna]

theorem C10_nonalpha_subtoken_unchanged_witness :
    capPiece ['4', 'c', 'h', 'a', 'n'] = ['4', 'c', 'h', 'a', 'n'] :=
  C10_nonalpha_subtoken_unchanged.1 ['4', 'c', 'h', 'a', 'n'] ⟨'4', by decide, by decide⟩
